import Mathlib

/-!
# auroractl: the `status` command

A shallow embedding of `cmd/status.go` (with the flag variables of `cmd/root.go`):
job path parsing, extraction of the job list from the listing output, the
role/env/job filter, the line-by-line classification of `aurora job diff`
output, and the per-job report loop.

Go strings are modelled as lists of characters.  Every pattern the program
searches for is ASCII, so the byte/rune distinction of Go plays no role there;
where the program counts bytes (the token limit of `bufio.Scanner`) the length
of the UTF-8 encoding is used.  A run-time panic (index out of range) is
modelled by `none`.
-/

set_option linter.dupNamespace false

namespace Auroractl

/-- A Go string. -/
abbrev Str := List Char

/-! ## Library functions used by the program -/

/-- Go `strings.HasPrefix`. -/
def HasPrefix (s pre : Str) : Bool := pre.isPrefixOf s

/-- Go `strings.Split` with a one-character separator: the pieces between
consecutive separators; a string without separator gives one piece. -/
def Split (sep : Char) : Str → List Str
  | [] => [[]]
  | c :: cs =>
    if c = sep then [] :: Split sep cs
    else
      match Split sep cs with
      | [] => [[c]]
      | h :: t => (c :: h) :: t

/-- The character class `[^\[\]]` of the regular expression. -/
def notBracket (c : Char) : Bool := !(c == '[' || c == ']')

/-- A match of the regular expression `\[([^\[\]]*)\]` anchored at the start of
the input: an opening bracket, the longest run of non-bracket characters, a
closing bracket.  (The starred class excludes the closing bracket, so no
shorter run can be followed by one.) -/
def reMatchAt : Str → Option Str
  | [] => none
  | c :: rest =>
    if c = '[' then
      match rest.dropWhile notBracket with
      | d :: _ => if d = ']' then some ('[' :: (rest.takeWhile notBracket ++ [']'])) else none
      | [] => none
    else none

/-- Go `re.FindString` for `re = regexp.MustCompile("\[([^\[\]]*)\]")`:
the text of the leftmost match, the empty string when there is none. -/
def FindString : Str → Str
  | [] => []
  | c :: cs =>
    match reMatchAt (c :: cs) with
    | some m => m
    | none => FindString cs

/-- The loop of Go `strings.FieldsFunc`: `cur` is the field being read, if any. -/
def fieldsLoop (f : Char → Bool) : Option Str → Str → List Str
  | none, [] => []
  | some w, [] => [w]
  | none, c :: cs => if f c then fieldsLoop f none cs else fieldsLoop f (some [c]) cs
  | some w, c :: cs => if f c then w :: fieldsLoop f none cs else fieldsLoop f (some (w ++ [c])) cs

/-- Go `strings.FieldsFunc`. -/
def FieldsFunc (s : Str) (f : Char → Bool) : List Str := fieldsLoop f none s

/-- Go `bufio.MaxScanTokenSize`, the size limit of the buffer of a
`bufio.Scanner` that is given no buffer of its own. -/
def MaxScanTokenSize : Nat := 64 * 1024

/-- The number of bytes of a string: the length of its UTF-8 encoding. -/
def byteLen (s : Str) : Nat := (s.map Char.utf8Size).sum

/-- Go `dropCR` of package `bufio`: one trailing carriage return is dropped. -/
def dropCR (data : Str) : Str := if data.getLast? = some '\r' then data.dropLast else data

/-- The lines of a text as Go `bufio.ScanLines` cuts them, carriage returns
still in place: the pieces between newlines, where the empty piece after a
final newline (and the only piece of the empty text) is no line. -/
def rawLines (text : Str) : List Str :=
  if (Split '\n' text).getLast? = some [] then (Split '\n' text).dropLast
  else Split '\n' text

/-- The lines of a text, each without its trailing carriage return. -/
def outputLines (text : Str) : List Str := (rawLines text).map dropCR

/-- The tokens that `scanner.Scan()` delivers for
`bufio.NewScanner(strings.NewReader(text))`, in order.  A line is delivered when
it fits, together with its newline, into the buffer of `MaxScanTokenSize` bytes;
at the first line of `MaxScanTokenSize` bytes or more `Scan` returns false with
`ErrTooLong`, and neither that line nor any later one is delivered. -/
def scanLines (text : Str) : List Str :=
  ((rawLines text).takeWhile (fun l => decide (byteLen l < MaxScanTokenSize))).map dropCR

/-- Modelled from the spec: `util.StringInSlice` of package `pkg/util`, which is
not among the sources; the spec speaks of a value being in the allow-list. -/
def StringInSlice (a : Str) (list : List Str) : Bool := list.contains a

/-! ## Data model -/

/-- The struct `Job`. -/
structure Job where
  Cluster : Str
  Role : Str
  Env : Str
  Job : Str
  JobPath : Str
  deriving DecidableEq, Repr

/-- The struct `JobUpdate`. -/
structure JobUpdate where
  JobIndex : Nat
  Job : Job
  Dirty : Bool
  Diff : List Str
  FoundHeader : Bool
  Update : Str
  Add : Str
  Remove : Str
  deriving DecidableEq, Repr

/-- The flag variables of `cmd/root.go` read or settable during `status`. -/
structure Flags where
  auroraClusters : List Str
  auroraRoles : List Str
  auroraEnvs : List Str
  auroraJobs : List Str
  verbose : Bool
  debug : Bool
  deriving DecidableEq, Repr

/-! ## Job paths -/

/-- Source `NewJobFromString`: the first four pieces of the path; indexing a
missing piece panics. -/
def NewJobFromString (job : Str) : Option Job :=
  let jobParts := Split '/' job
  match jobParts[0]?, jobParts[1]?, jobParts[2]?, jobParts[3]? with
  | some c, some r, some e, some j =>
    some { Cluster := c, Role := r, Env := e, Job := j, JobPath := job }
  | _, _, _, _ => none

/-- The value `NewJobUpdate` builds once the job is parsed: the zero
`JobUpdate` with `Job` and `JobIndex` set, `Dirty` and `FoundHeader` false. -/
def initJobUpdate (jb : Job) (jobindex : Nat) : JobUpdate :=
  { JobIndex := jobindex, Job := jb, Dirty := false, Diff := [], FoundHeader := false,
    Update := [], Add := [], Remove := [] }

/-- Source `NewJobUpdate`. -/
def NewJobUpdate (job : Str) (jobindex : Nat) : Option JobUpdate :=
  match NewJobFromString job with
  | some jb => some (initJobUpdate jb jobindex)
  | none => none

/-! ## Listing output -/

/-- The local closure `f` of `statusCmdF`: membership in `jobseparators = "[], "`. -/
def isJobSeparator (r : Char) : Bool := "[], ".toList.contains r

/-- The job list of `statusCmdF`: `strings.FieldsFunc(re.FindString(str1), f)`. -/
def extractJobList (str1 : Str) : List Str := FieldsFunc (FindString str1) isJobSeparator

/-! ## Filter -/

/-- The value of `jobSelected` after the filtering block of `statusCmdF`. -/
def jobSelected (fl : Flags) (j : JobUpdate) : Bool :=
  if fl.auroraRoles.length > 0 || fl.auroraEnvs.length > 0 || fl.auroraJobs.length > 0 then
    let s := false
    let s := if fl.auroraRoles.length > 0 && StringInSlice j.Job.Role fl.auroraRoles then true else s
    let s := if fl.auroraEnvs.length > 0 && StringInSlice j.Job.Env fl.auroraEnvs then true else s
    let s := if fl.auroraJobs.length > 0 && StringInSlice j.Job.Job fl.auroraJobs then true else s
    s
  else true

/-- The loop `for i, job := range jobs` of `statusCmdF`, from index `i` on, with
`filteredJobs` as accumulator. -/
def filterLoop (fl : Flags) : Nat → List Str → List JobUpdate → Option (List JobUpdate)
  | _, [], filteredJobs => some filteredJobs
  | i, job :: rest, filteredJobs =>
    match NewJobUpdate job i with
    | none => none
    | some j =>
      if jobSelected fl j then filterLoop fl (i + 1) rest (filteredJobs ++ [j])
      else filterLoop fl (i + 1) rest filteredJobs

/-- The list `filteredJobs` of `statusCmdF` for the listed `jobs`. -/
def filterJobs (fl : Flags) (jobs : List Str) : Option (List JobUpdate) :=
  filterLoop fl 0 jobs []

/-! ## Diff classification -/

/-- The header marker. -/
def headerMark : Str := "This job update will:".toList
/-- The remove marker. -/
def removeMark : Str := "remove instances:".toList
/-- The add marker. -/
def addMark : Str := "add instances:".toList
/-- The update marker. -/
def updateMark : Str := "update instances:".toList

/-- One iteration of the scanner loop of `statusCmdF` on the line `text`. -/
def scanLine (j : JobUpdate) (text : Str) : JobUpdate :=
  let j := if HasPrefix text headerMark then { j with FoundHeader := true } else j
  if HasPrefix text removeMark then
    { j with Dirty := true, Remove := FindString text }
  else if HasPrefix text addMark then
    { j with Dirty := true, Add := FindString text }
  else if HasPrefix text updateMark then
    { j with Update := FindString text }
  else if !j.FoundHeader then
    { j with Diff := j.Diff ++ [text], Dirty := true }
  else j

/-- The body of the scanner loop run on the lines `lines`, in order: the state of
the job after the scanner has delivered exactly these lines. -/
def classify (j : JobUpdate) (lines : List Str) : JobUpdate := lines.foldl scanLine j

/-- The scanner loop `for l := 0; scanner.Scan(); l++` of `statusCmdF` on the
captured diff output `out`: the loop body is run on the lines the scanner
delivers; `scanner.Err()` is never looked at, so the loop just ends where the
scanner stops. -/
def classifyOutput (j : JobUpdate) (out : Str) : JobUpdate := classify j (scanLines out)

/-! ## Report -/

/-- What `statusCmdF` prints for one job: the arguments of the status line, the
update command printed under a dirty job, and the diff lines printed when
`verbose` is set. -/
structure Summary where
  JobIndex : Nat
  JobPath : Str
  Dirty : Bool
  Remove : Str
  Add : Str
  Update : Str
  DiffLines : Nat
  updateCmd : Option Str
  verboseLines : List Str
  deriving DecidableEq, Repr

/-- The printing part of the job loop.  The update command names the local
`auroraExe := "aurora"` of `statusCmdF`, which shadows the flag variable. -/
def summarize (fl : Flags) (auroraFile : Str) (j : JobUpdate) : Summary :=
  { JobIndex := j.JobIndex, JobPath := j.Job.JobPath, Dirty := j.Dirty, Remove := j.Remove,
    Add := j.Add, Update := j.Update, DiffLines := j.Diff.length,
    updateCmd :=
      if j.Dirty then
        some ("aurora update start ".toList ++ j.Job.JobPath ++ " ".toList ++ auroraFile)
      else none,
    verboseLines := if fl.verbose then j.Diff else [] }

/-- The loop `for _, j := range filteredJobs` of `statusCmdF`.  `diffCmd` is the
external `aurora job diff` invocation (an error or the captured output),
`scan` the line scanner over that output (`scanLines` in the program), `out`
the report printed so far. -/
def diffLoop (fl : Flags) (auroraFile : Str) (diffCmd : Job → Except Str Str)
    (scan : Str → List Str) : List JobUpdate → List Summary → List Summary
  | [], out => out
  | j :: rest, out =>
    match diffCmd j.Job with
    | Except.error _ => diffLoop fl auroraFile diffCmd scan rest out
    | Except.ok text =>
      diffLoop fl auroraFile diffCmd scan rest
        (out ++ [summarize fl auroraFile (classify j (scan text))])

/-- The report of one file: the loop started with nothing printed. -/
def report (fl : Flags) (auroraFile : Str) (diffCmd : Job → Except Str Str)
    (scan : Str → List Str) (filteredJobs : List JobUpdate) : List Summary :=
  diffLoop fl auroraFile diffCmd scan filteredJobs []

/-! ## Specification vocabulary -/

/-- Go `strings.Join` with a one-character separator. -/
def Join (sep : Char) : List Str → Str
  | [] => []
  | [a] => a
  | a :: b :: rest => a ++ sep :: Join sep (b :: rest)

/-- A bracketed string: an opening bracket, characters other than brackets, a
closing bracket. -/
def Bracketed (r : Str) : Prop :=
  ∃ mid : Str, r = '[' :: (mid ++ [']']) ∧ ∀ c ∈ mid, c ≠ '[' ∧ c ≠ ']'

/-- Some substring of `s` is bracketed. -/
def HasBracketed (s : Str) : Prop :=
  ∃ pre r post : Str, Bracketed r ∧ s = pre ++ r ++ post

/-- The string `r` is the first bracketed substring of `s`: it occurs in `s` and
no bracketed substring of `s` starts further left. -/
def IsFirstBracketed (s r : Str) : Prop :=
  Bracketed r ∧ ∃ pre post : Str, s = pre ++ r ++ post ∧
    ∀ pre2 r2 post2 : Str, Bracketed r2 → s = pre2 ++ r2 ++ post2 → pre.length ≤ pre2.length

/-- The list `fs` is the sequence of maximal non-empty runs of characters of `s`
that are not separators: `s` is separators, a run, and then, starting with a
separator or at the end of `s`, the remaining runs. -/
inductive IsRuns (sep : Char → Bool) : Str → List Str → Prop
  | done (s : Str) : (∀ c ∈ s, sep c = true) → IsRuns sep s []
  | field (pre w rest : Str) (fs : List Str) :
      (∀ c ∈ pre, sep c = true) → w ≠ [] → (∀ c ∈ w, sep c = false) →
      (∀ c, rest.head? = some c → sep c = true) → IsRuns sep rest fs →
      IsRuns sep (pre ++ w ++ rest) (w :: fs)

/-- The line `l` is the last line of `lines` that starts with `mark`. -/
def IsLastWith (mark : Str) (lines : List Str) (l : Str) : Prop :=
  ∃ pre post : List Str, lines = pre ++ l :: post ∧ HasPrefix l mark = true ∧
    ∀ x ∈ post, HasPrefix x mark = false

/-- The value `range` is the first bracketed substring of the last line of `lines`
starting with `mark` (empty when that line has none), and empty when no line
starts with `mark`. -/
def IsRangeOf (mark : Str) (lines : List Str) (range : Str) : Prop :=
  (∀ l, IsLastWith mark lines l →
      (∀ b, IsFirstBracketed l b → range = b) ∧ (¬ HasBracketed l → range = [])) ∧
  ((∀ l ∈ lines, HasPrefix l mark = false) → range = [])

/-- The selection rule in the words of the spec: every job when the three
allow-lists are empty, otherwise the jobs whose role, env or job name is in the
corresponding non-empty allow-list. -/
def SelectedSpec (roleAllow envAllow jobAllow : List Str) (jb : Job) : Prop :=
  (roleAllow = [] ∧ envAllow = [] ∧ jobAllow = []) ∨
  (roleAllow ≠ [] ∧ jb.Role ∈ roleAllow) ∨ (envAllow ≠ [] ∧ jb.Env ∈ envAllow) ∨
  (jobAllow ≠ [] ∧ jb.Job ∈ jobAllow)

instance (roleAllow envAllow jobAllow : List Str) (jb : Job) :
    Decidable (SelectedSpec roleAllow envAllow jobAllow jb) := by
  unfold SelectedSpec; infer_instance

/-- The listed jobs as `JobUpdate` values, the job at position `n` of the list
carrying the index `i + n`; `none` when parsing one of the paths panics. -/
def parseFrom : Nat → List Str → Option (List JobUpdate)
  | _, [] => some []
  | i, job :: rest =>
    match NewJobUpdate job i, parseFrom (i + 1) rest with
    | some j, some js => some (j :: js)
    | _, _ => none

/-- The entry the report has for `j`, if any: the summary of its classified diff
output when the diff invocation succeeds, nothing when it fails. -/
def entryOf (fl : Flags) (auroraFile : Str) (diffCmd : Job → Except Str Str)
    (scan : Str → List Str) (j : JobUpdate) : Option Summary :=
  match diffCmd j.Job with
  | Except.ok text => some (summarize fl auroraFile (classify j (scan text)))
  | Except.error _ => none

/-- The diff invocation of `jb` succeeded. -/
def succeeded (diffCmd : Job → Except Str Str) (jb : Job) : Bool :=
  match diffCmd jb with
  | Except.ok _ => true
  | Except.error _ => false

/-- The line starts with one of the three instance markers. -/
def isMarker (l : Str) : Bool :=
  HasPrefix l removeMark || HasPrefix l addMark || HasPrefix l updateMark

/-- The lines strictly before the first header line (all lines when there is
none) that start with no instance marker, in order. -/
def freeform (lines : List Str) : List Str :=
  (lines.takeWhile (fun l => !HasPrefix l headerMark)).filter (fun l => !isMarker l)

/-- The bracket expression of the last line starting with `mark`, `init` when
no line does. -/
def lastRange (mark : Str) (lines : List Str) (init : Str) : Str :=
  lines.foldl (fun acc l => if HasPrefix l mark then FindString l else acc) init

/-- A sample listing: two well-formed job paths. -/
def sampleJobs : List Str :=
  ["devcluster/www/prod/hello".toList, "devcluster/batch/prod/cron".toList]

/-- Sample flags: only the role allow-list is given, with the role `www`. -/
def sampleFlags : Flags :=
  { auroraClusters := [], auroraRoles := ["www".toList], auroraEnvs := [], auroraJobs := [],
    verbose := false, debug := false }

/-- A sample job. -/
def sampleJob : Job :=
  { Cluster := "devcluster".toList, Role := "www".toList, Env := "prod".toList,
    Job := "hello".toList, JobPath := "devcluster/www/prod/hello".toList }

/-- Scenario A of the spec: a clean update. -/
def scenarioA : List Str :=
  ["This job update will:".toList, "update instances: [0-2]".toList, "with diff:".toList]

/-- Scenario B of the spec: instances removed and added. -/
def scenarioB : List Str :=
  ["This job update will:".toList, "remove instances: [3]".toList,
   "add instances: [4-5]".toList]

/-- Sample flags: only a cluster allow-list is given. -/
def clusterFlags : Flags :=
  { auroraClusters := ["othercluster".toList], auroraRoles := [], auroraEnvs := [],
    auroraJobs := [], verbose := false, debug := false }

/-- A sample raw listing output. -/
def sampleListing : Str := "jobs: [a/b/c/d, e/f/g/h] [x]".toList

/-- A sample diff output with an error text before the header. -/
def sampleLines : List Str :=
  ["some error text".toList, "This job update will:".toList,
   "update instances: [0-2]".toList, "with diff:".toList]

/-- A sample diff invocation: it fails for the role `www` and prints the lines of
scenario A otherwise. -/
def sampleDiffCmd (jb : Job) : Except Str Str :=
  if jb.Role = "www".toList then Except.error "exit status 1".toList
  else Except.ok "This job update will:\nupdate instances: [0-2]\nwith diff:".toList

/-- A second sample job, of role `batch`. -/
def sampleJob2 : Job :=
  { Cluster := "devcluster".toList, Role := "batch".toList, Env := "prod".toList,
    Job := "cron".toList, JobPath := "devcluster/batch/prod/cron".toList }

/-- A line of 65536 bytes. -/
def longLine : Str := List.replicate 65536 'x'

/-- A diff output whose second line is too long for the scanner. -/
def longOutput : Str :=
  "remove instances: [1]".toList ++ '\n' :: (longLine ++ '\n' :: "add instances: [2]".toList)

/-- Scenario B of the spec as the text of a diff output. -/
def scenarioBText : Str :=
  "This job update will:\nremove instances: [3]\nadd instances: [4-5]\n".toList

/-- The sample diff output with an error text before the header, as a text with
carriage returns. -/
def sampleText : Str :=
  "some error text\r\nThis job update will:\r\nupdate instances: [0-2]\r\nwith diff:\r\n".toList

/-! ## Job paths: lemmas -/

theorem Split_ne_nil (sep : Char) (s : Str) : Split sep s ≠ [] := by
  induction s with
  | nil => simp [Split]
  | cons c cs ih =>
    unfold Split
    split
    · simp
    · split <;> simp

theorem Join_Split (sep : Char) (s : Str) : Join sep (Split sep s) = s := by
  induction s with
  | nil => simp [Split, Join]
  | cons c cs ih =>
    unfold Split
    by_cases h : c = sep
    · simp only [h, if_true]
      cases hs : Split sep cs with
      | nil => exact absurd hs (Split_ne_nil sep cs)
      | cons a t => rw [hs] at ih; simp [Join, ih]
    · simp only [h, if_false]
      cases hs : Split sep cs with
      | nil => exact absurd hs (Split_ne_nil sep cs)
      | cons a t =>
        rw [hs] at ih
        cases t with
        | nil => simp_all [Join]
        | cons b t2 => simp_all [Join]

theorem NewJobFromString_of_four (path c r e j : Str) (rest : List Str)
    (h : Split '/' path = c :: r :: e :: j :: rest) :
    NewJobFromString path =
      some { Cluster := c, Role := r, Env := e, Job := j, JobPath := path } := by
  simp [NewJobFromString, h]

theorem NewJobFromString_eq_none_iff (path : Str) :
    NewJobFromString path = none ↔ (Split '/' path).length < 4 := by
  unfold NewJobFromString
  rcases hs : Split '/' path with _ | ⟨a, _ | ⟨b, _ | ⟨c, _ | ⟨d, t⟩⟩⟩⟩ <;> simp

/-! ## Job paths: claims -/

/-- C6, as the code has it: parsing a path panics exactly when splitting it on
the slash yields fewer than four pieces; with four or more pieces it succeeds,
the cluster, role, env and job are the first four pieces unchanged (empty
pieces included, nothing trimmed) and the path field is the input. -/
theorem NewJobFromString_spec (path : Str) :
    (NewJobFromString path = none ↔ (Split '/' path).length < 4) ∧
    (∀ (c r e j : Str) (rest : List Str), Split '/' path = c :: r :: e :: j :: rest →
      NewJobFromString path =
        some { Cluster := c, Role := r, Env := e, Job := j, JobPath := path }) :=
  ⟨NewJobFromString_eq_none_iff path, fun c r e j rest h =>
    NewJobFromString_of_four path c r e j rest h⟩

/-- C6 at a path of four pieces whose second piece is empty. -/
theorem NewJobFromString_spec_witness :
    NewJobFromString "devcluster//prod/hello".toList =
      some { Cluster := "devcluster".toList, Role := [], Env := "prod".toList,
             Job := "hello".toList, JobPath := "devcluster//prod/hello".toList } :=
  (NewJobFromString_spec "devcluster//prod/hello".toList).2 _ _ _ _ [] (by decide)

/-- C6 fails as stated: a path of five pieces does not split into exactly four
pieces, yet parsing it succeeds and drops the fifth piece. -/
theorem NewJobFromString_five_pieces :
    (Split '/' "devcluster/www/prod/hello/extra".toList).length = 5 ∧
    NewJobFromString "devcluster/www/prod/hello/extra".toList =
      some { Cluster := "devcluster".toList, Role := "www".toList, Env := "prod".toList,
             Job := "hello".toList, JobPath := "devcluster/www/prod/hello/extra".toList } := by
  decide

/-- C8: a path that splits on the slash into exactly four pieces parses, and
joining cluster, role, env and job with slashes gives back the path, which is
also the path field. -/
theorem NewJobFromString_roundtrip (path : Str) (h : (Split '/' path).length = 4) :
    ∃ jb : Job, NewJobFromString path = some jb ∧
      jb.Cluster ++ "/".toList ++ jb.Role ++ "/".toList ++ jb.Env ++ "/".toList ++ jb.Job = path ∧
      jb.JobPath = path := by
  rcases hs : Split '/' path with _ | ⟨a, _ | ⟨b, _ | ⟨c, _ | ⟨d, _ | ⟨e, t⟩⟩⟩⟩⟩ <;>
    rw [hs] at h <;> simp at h
  refine ⟨_, NewJobFromString_of_four path a b c d [] hs, ?_, rfl⟩
  have hj := Join_Split '/' path
  rw [hs] at hj
  simpa [Join] using hj

/-- C8 at the path `devcluster/www/prod/hello`. -/
theorem NewJobFromString_roundtrip_witness :
    (Split '/' "devcluster/www/prod/hello".toList).length = 4 ∧
    ∃ jb : Job, NewJobFromString "devcluster/www/prod/hello".toList = some jb ∧
      jb.Cluster ++ "/".toList ++ jb.Role ++ "/".toList ++ jb.Env ++ "/".toList ++ jb.Job
        = "devcluster/www/prod/hello".toList ∧
      jb.JobPath = "devcluster/www/prod/hello".toList :=
  ⟨by decide, NewJobFromString_roundtrip "devcluster/www/prod/hello".toList (by decide)⟩

/-! ## The bracket expression: lemmas -/

theorem notBracket_iff (c : Char) : notBracket c = true ↔ c ≠ '[' ∧ c ≠ ']' := by
  simp [notBracket]

theorem reMatchAt_of_bracketed (m post : Str) (hm : Bracketed m) :
    reMatchAt (m ++ post) = some m := by
  obtain ⟨mid, rfl, hmid⟩ := hm
  have hall : ∀ c ∈ mid, notBracket c = true := fun c hc => (notBracket_iff c).2 (hmid c hc)
  have hd : (mid ++ ']' :: post).dropWhile notBracket = ']' :: post := by
    rw [List.dropWhile_append_of_pos hall]
    simp [List.dropWhile, notBracket]
  have ht : (mid ++ ']' :: post).takeWhile notBracket = mid := by
    rw [List.takeWhile_append_of_pos hall]
    simp [List.takeWhile, notBracket]
  have he : '[' :: (mid ++ [']']) ++ post = '[' :: (mid ++ ']' :: post) := by simp
  rw [he]
  simp only [reMatchAt, if_true, hd, ht]

theorem reMatchAt_some (s m : Str) (h : reMatchAt s = some m) :
    Bracketed m ∧ ∃ post, s = m ++ post := by
  cases s with
  | nil => simp [reMatchAt] at h
  | cons c rest =>
    unfold reMatchAt at h
    by_cases hc : c = '['
    · subst hc
      simp only [if_true] at h
      cases hd : rest.dropWhile notBracket with
      | nil => rw [hd] at h; simp at h
      | cons d t =>
        rw [hd] at h
        by_cases hdd : d = ']'
        · subst hdd
          simp only [if_true, Option.some.injEq] at h
          subst h
          refine ⟨⟨rest.takeWhile notBracket, rfl, ?_⟩, t, ?_⟩
          · intro x hx
            exact (notBracket_iff x).1 (List.mem_takeWhile_imp hx)
          · have := List.takeWhile_append_dropWhile notBracket rest
            rw [hd] at this
            simp [this]
        · simp [hdd] at h
    · simp [hc] at h

theorem FindString_of_first (s r : Str) (h : IsFirstBracketed s r) : FindString s = r := by
  obtain ⟨hr, pre, post, hs, hmin⟩ := h
  induction pre generalizing s with
  | nil =>
    obtain ⟨mid, hmid, hb⟩ := hr
    subst hmid
    have hm := reMatchAt_of_bracketed ('[' :: (mid ++ [']'])) post ⟨mid, rfl, hb⟩
    subst hs
    simp only [List.nil_append] at hm ⊢
    simp only [List.cons_append] at hm ⊢
    unfold FindString
    rw [hm]
  | cons c pre1 ih =>
    subst hs
    have hnone : reMatchAt (c :: (pre1 ++ r ++ post)) = none := by
      cases hm : reMatchAt (c :: (pre1 ++ r ++ post)) with
      | none => rfl
      | some m =>
        obtain ⟨hbm, post2, hpost2⟩ := reMatchAt_some _ _ hm
        have := hmin [] m post2 hbm (by simpa using hpost2)
        simp at this
    have hstep : FindString (c :: pre1 ++ r ++ post) = FindString (pre1 ++ r ++ post) := by
      show FindString (c :: (pre1 ++ r ++ post)) = _
      rw [FindString, hnone]
    rw [hstep]
    apply ih (pre1 ++ r ++ post) rfl
    intro pre2 r2 post2 hb2 h2
    have := hmin (c :: pre2) r2 post2 hb2 (by simp [h2])
    simpa using this

theorem FindString_of_none (s : Str) (h : ¬ HasBracketed s) : FindString s = [] := by
  induction s with
  | nil => rfl
  | cons c cs ih =>
    have hnone : reMatchAt (c :: cs) = none := by
      cases hm : reMatchAt (c :: cs) with
      | none => rfl
      | some m =>
        obtain ⟨hbm, post2, hpost2⟩ := reMatchAt_some _ _ hm
        exact absurd ⟨[], m, post2, hbm, by simpa using hpost2⟩ h
    rw [FindString, hnone]
    apply ih
    rintro ⟨pre, r, post, hb, hs⟩
    exact h ⟨c :: pre, r, post, hb, by simp [hs]⟩

theorem FindString_first (s : Str) (h : HasBracketed s) : IsFirstBracketed s (FindString s) := by
  induction s with
  | nil =>
    obtain ⟨pre, r, post, ⟨mid, rfl, _⟩, hs⟩ := h
    simp at hs
  | cons c cs ih =>
    cases hm : reMatchAt (c :: cs) with
    | some m =>
      obtain ⟨hbm, post2, hpost2⟩ := reMatchAt_some _ _ hm
      rw [FindString, hm]
      exact ⟨hbm, [], post2, by simpa using hpost2, fun _ _ _ _ _ => Nat.zero_le _⟩
    | none =>
      have htail : ∀ pre r post, Bracketed r → c :: cs = pre ++ r ++ post →
          ∃ pre1, pre = c :: pre1 ∧ cs = pre1 ++ r ++ post := by
        intro pre r post hb hs
        cases pre with
        | nil =>
          have := reMatchAt_of_bracketed r post hb
          simp only [List.nil_append] at hs
          rw [← hs, hm] at this
          simp at this
        | cons c1 pre1 =>
          simp only [List.cons_append, List.cons.injEq] at hs
          exact ⟨pre1, by rw [hs.1], hs.2⟩
      have hcs : HasBracketed cs := by
        obtain ⟨pre, r, post, hb, hs⟩ := h
        obtain ⟨pre1, _, h1⟩ := htail pre r post hb hs
        exact ⟨pre1, r, post, hb, h1⟩
      obtain ⟨hb, pre, post, hs, hmin⟩ := ih hcs
      rw [FindString, hm]
      refine ⟨hb, c :: pre, post, by simp [← hs], ?_⟩
      intro pre2 r2 post2 hb2 h2
      obtain ⟨pre1, hp, h1⟩ := htail pre2 r2 post2 hb2 h2
      subst hp
      have := hmin pre1 r2 post2 hb2 h1
      simpa using this

/-! ## Fields: lemmas -/

theorem IsRuns_cons_sep (f : Char → Bool) (c : Char) (s : Str) (fs : List Str)
    (hc : f c = true) (h : IsRuns f s fs) : IsRuns f (c :: s) fs := by
  cases h with
  | done _ hall =>
    exact IsRuns.done _ (fun x hx => by
      rcases List.mem_cons.1 hx with rfl | hx
      · exact hc
      · exact hall x hx)
  | field pre w rest fs hpre hw hwn hrest htail =>
    have := IsRuns.field (c :: pre) w rest fs (fun x hx => by
      rcases List.mem_cons.1 hx with rfl | hx
      · exact hc
      · exact hpre x hx) hw hwn hrest htail
    simpa using this

theorem fieldsLoop_spec (f : Char → Bool) (s : Str) :
    IsRuns f s (fieldsLoop f none s) ∧
    ∀ w : Str, ∃ (u rest : Str) (fs : List Str), s = u ++ rest ∧ (∀ c ∈ u, f c = false) ∧
      (∀ c, rest.head? = some c → f c = true) ∧ IsRuns f rest fs ∧
      fieldsLoop f (some w) s = (w ++ u) :: fs := by
  induction s with
  | nil =>
    refine ⟨IsRuns.done [] (by simp), fun w => ⟨[], [], [], ?_⟩⟩
    simp [fieldsLoop]
    exact IsRuns.done [] (by simp)
  | cons c cs ih =>
    obtain ⟨ih1, ih2⟩ := ih
    by_cases hc : f c = true
    · have h1 : IsRuns f (c :: cs) (fieldsLoop f none cs) := IsRuns_cons_sep f c cs _ hc ih1
      refine ⟨by simpa [fieldsLoop, hc] using h1, fun w => ⟨[], c :: cs, fieldsLoop f none cs, ?_⟩⟩
      simp [fieldsLoop, hc, h1]
    · have hc2 : f c = false := by simpa using hc
      constructor
      · obtain ⟨u, rest, fs, hs, hu, hrest, hruns, heq⟩ := ih2 [c]
        have := IsRuns.field [] (c :: u) rest fs (by simp) (by simp)
          (fun x hx => by
            rcases List.mem_cons.1 hx with rfl | hx
            · exact hc2
            · exact hu x hx) hrest hruns
        simp only [fieldsLoop, hc2, heq]
        subst hs
        simpa using this
      · intro w
        obtain ⟨u, rest, fs, hs, hu, hrest, hruns, heq⟩ := ih2 (w ++ [c])
        refine ⟨c :: u, rest, fs, by simp [hs], ?_, hrest, hruns, ?_⟩
        · intro x hx
          rcases List.mem_cons.1 hx with rfl | hx
          · exact hc2
          · exact hu x hx
        · simp [fieldsLoop, hc2, heq]

theorem fieldsLoop_skip (f : Char → Bool) (pre s : Str) (hpre : ∀ c ∈ pre, f c = true) :
    fieldsLoop f none (pre ++ s) = fieldsLoop f none s := by
  induction pre with
  | nil => rfl
  | cons c pre ih =>
    have hc : f c = true := hpre c (by simp)
    simp only [List.cons_append, fieldsLoop, hc, if_true]
    exact ih (fun x hx => hpre x (by simp [hx]))

theorem fieldsLoop_all_sep (f : Char → Bool) (s : Str) (h : ∀ c ∈ s, f c = true) :
    fieldsLoop f none s = [] := by
  have := fieldsLoop_skip f s [] h
  simpa [fieldsLoop] using this

theorem fieldsLoop_run (f : Char → Bool) (w u rest : Str) (hu : ∀ c ∈ u, f c = false)
    (hrest : ∀ c, rest.head? = some c → f c = true) :
    fieldsLoop f (some w) (u ++ rest) = (w ++ u) :: fieldsLoop f none rest := by
  induction u generalizing w with
  | nil =>
    cases rest with
    | nil => simp [fieldsLoop]
    | cons c cs =>
      have hc : f c = true := hrest c rfl
      simp [fieldsLoop, hc]
  | cons c u ih =>
    have hc : f c = false := hu c (by simp)
    have hstep : fieldsLoop f (some w) (c :: (u ++ rest)) =
        fieldsLoop f (some (w ++ [c])) (u ++ rest) := by simp [fieldsLoop, hc]
    rw [List.cons_append, hstep, ih (w ++ [c]) (fun x hx => hu x (by simp [hx]))]
    simp

theorem fieldsLoop_unique (f : Char → Bool) (s : Str) (fs : List Str) (h : IsRuns f s fs) :
    fieldsLoop f none s = fs := by
  induction h with
  | done s hall => exact fieldsLoop_all_sep f s hall
  | field pre w rest fs hpre hw hwn hrest _ ih =>
    rw [List.append_assoc, fieldsLoop_skip f pre _ hpre]
    cases w with
    | nil => exact absurd rfl hw
    | cons c w1 =>
      have hc : f c = false := hwn c (by simp)
      have hstep : fieldsLoop f none (c :: (w1 ++ rest)) =
          fieldsLoop f (some [c]) (w1 ++ rest) := by simp [fieldsLoop, hc]
      rw [List.cons_append, hstep,
        fieldsLoop_run f [c] w1 rest (fun x hx => hwn x (by simp [hx])) hrest, ih]
      simp

theorem fieldsLoop_append_sep (f : Char → Bool) (st : Option Str) (s : Str) (c : Char)
    (hc : f c = true) : fieldsLoop f st (s ++ [c]) = fieldsLoop f st s := by
  induction s generalizing st with
  | nil => cases st <;> simp [fieldsLoop, hc]
  | cons d s ih =>
    cases st with
    | none =>
      by_cases hd : f d = true
      · simp [fieldsLoop, hd, ih]
      · simp [fieldsLoop, hd, ih]
    | some w =>
      by_cases hd : f d = true
      · simp [fieldsLoop, hd, ih]
      · simp [fieldsLoop, hd, ih]

theorem IsRuns_mem (f : Char → Bool) (s : Str) (fs : List Str) (h : IsRuns f s fs) :
    ∀ e ∈ fs, e ≠ [] ∧ ∀ c ∈ e, f c = false := by
  induction h with
  | done s hall => simp
  | field pre w rest fs hpre hw hwn hrest _ ih =>
    intro e he
    rcases List.mem_cons.1 he with rfl | he
    · exact ⟨hw, hwn⟩
    · exact ih e he

theorem extractJobList_inside (mid : Str) :
    FieldsFunc ('[' :: (mid ++ [']'])) isJobSeparator = FieldsFunc mid isJobSeparator := by
  have h1 : isJobSeparator '[' = true := by decide
  have h2 : isJobSeparator ']' = true := by decide
  unfold FieldsFunc
  have : '[' :: (mid ++ [']']) = ['['] ++ (mid ++ [']']) := rfl
  rw [this, fieldsLoop_skip _ ['['] _ (by simpa using h1), fieldsLoop_append_sep _ _ _ _ h2]

/-! ## Listing output: claims -/

/-- C7: the extracted job list is the sequence of maximal non-empty runs of
non-separator characters inside the first bracketed substring of the raw
output, and the only such sequence; it is empty when the output has no
bracketed substring and when the brackets enclose only separators; no element
is empty or contains a separator; `[a, b, c]` gives a, b, c and
`no brackets here` gives nothing. -/
theorem extractJobList_spec (str1 : Str) :
    (∀ r mid : Str, IsFirstBracketed str1 r → r = '[' :: (mid ++ [']']) →
      IsRuns isJobSeparator mid (extractJobList str1) ∧
      (∀ fs, IsRuns isJobSeparator mid fs → fs = extractJobList str1) ∧
      ((∀ c ∈ mid, isJobSeparator c = true) → extractJobList str1 = [])) ∧
    (¬ HasBracketed str1 → extractJobList str1 = []) ∧
    (∀ e ∈ extractJobList str1, e ≠ [] ∧ ∀ c ∈ e, isJobSeparator c = false) ∧
    extractJobList "[a, b, c]".toList = ["a".toList, "b".toList, "c".toList] ∧
    extractJobList "no brackets here".toList = [] := by
  refine ⟨?_, ?_, ?_, by decide, by decide⟩
  · intro r mid hr hmid
    have hf : extractJobList str1 = FieldsFunc mid isJobSeparator := by
      unfold extractJobList
      rw [FindString_of_first str1 r hr, hmid, extractJobList_inside]
    rw [hf]
    refine ⟨(fieldsLoop_spec isJobSeparator mid).1, ?_, ?_⟩
    · intro fs hfs
      exact (fieldsLoop_unique isJobSeparator mid fs hfs).symm
    · intro hall
      exact fieldsLoop_all_sep isJobSeparator mid hall
  · intro hno
    unfold extractJobList
    rw [FindString_of_none str1 hno]
    rfl
  · unfold extractJobList FieldsFunc
    exact IsRuns_mem _ _ _ (fieldsLoop_spec isJobSeparator (FindString str1)).1

/-- C7 at a listing with two bracketed substrings: the jobs are the runs inside
the first one. -/
theorem extractJobList_spec_witness :
    IsFirstBracketed sampleListing "[a/b/c/d, e/f/g/h]".toList ∧
    IsRuns isJobSeparator "a/b/c/d, e/f/g/h".toList (extractJobList sampleListing) ∧
    extractJobList sampleListing = ["a/b/c/d".toList, "e/f/g/h".toList] := by
  have hfirst : IsFirstBracketed sampleListing "[a/b/c/d, e/f/g/h]".toList :=
    FindString_first sampleListing
      ⟨"jobs: ".toList, "[a/b/c/d, e/f/g/h]".toList, " [x]".toList,
        ⟨"a/b/c/d, e/f/g/h".toList, by decide, by decide⟩, by decide⟩
  exact ⟨hfirst,
    ((extractJobList_spec sampleListing).1 _ "a/b/c/d, e/f/g/h".toList hfirst (by decide)).1,
    by decide⟩

/-! ## Filter: lemmas -/

theorem jobSelected_iff (fl : Flags) (j : JobUpdate) :
    jobSelected fl j = true ↔
      SelectedSpec fl.auroraRoles fl.auroraEnvs fl.auroraJobs j.Job := by
  unfold jobSelected SelectedSpec StringInSlice
  rcases hr : fl.auroraRoles with _ | ⟨r, rs⟩ <;> rcases he : fl.auroraEnvs with _ | ⟨e, es⟩ <;>
    rcases hj : fl.auroraJobs with _ | ⟨b, bs⟩ <;> simp <;> tauto

theorem jobSelected_eq_decide (fl : Flags) (j : JobUpdate) :
    jobSelected fl j =
      decide (SelectedSpec fl.auroraRoles fl.auroraEnvs fl.auroraJobs j.Job) := by
  rw [Bool.eq_iff_iff, jobSelected_iff]
  simp

theorem filterLoop_eq (fl : Flags) (jobs : List Str) (k : Nat) (acc : List JobUpdate) :
    filterLoop fl k jobs acc =
      (parseFrom k jobs).map (fun all => acc ++ all.filter (jobSelected fl)) := by
  induction jobs generalizing k acc with
  | nil => simp [filterLoop, parseFrom]
  | cons job rest ih =>
    unfold filterLoop parseFrom
    cases hj : NewJobUpdate job k with
    | none => simp
    | some j =>
      cases hp : parseFrom (k + 1) rest with
      | none => by_cases hs : jobSelected fl j = true <;> simp [hs, ih, hp]
      | some js => by_cases hs : jobSelected fl j = true <;> simp [hs, ih, hp]

theorem filterJobs_eq (fl : Flags) (jobs : List Str) :
    filterJobs fl jobs = (parseFrom 0 jobs).map (fun all => all.filter (jobSelected fl)) := by
  unfold filterJobs
  rw [filterLoop_eq]
  simp

theorem parseFrom_wf (jobs : List Str) (k : Nat)
    (hwf : ∀ p ∈ jobs, 4 ≤ (Split '/' p).length) :
    ∃ all : List JobUpdate, parseFrom k jobs = some all ∧ all.length = jobs.length ∧
      ∀ (n : Nat) (p : Str), jobs[n]? = some p →
        ∃ jb, NewJobFromString p = some jb ∧ all[n]? = some (initJobUpdate jb (k + n)) := by
  induction jobs generalizing k with
  | nil => exact ⟨[], rfl, rfl, by simp⟩
  | cons job rest ih =>
    obtain ⟨all, hall, hlen, hidx⟩ := ih (k + 1) (fun p hp => hwf p (by simp [hp]))
    have h4 : 4 ≤ (Split '/' job).length := hwf job (by simp)
    cases hjb : NewJobFromString job with
    | none =>
      have := (NewJobFromString_eq_none_iff job).1 hjb
      omega
    | some jb =>
      refine ⟨initJobUpdate jb k :: all, ?_, by simp [hlen], ?_⟩
      · simp [parseFrom, NewJobUpdate, hjb, hall]
      · intro n p hn
        cases n with
        | zero =>
          simp only [List.getElem?_cons_zero, Option.some.injEq] at hn
          subst hn
          exact ⟨jb, hjb, by simp⟩
        | succ m =>
          simp only [List.getElem?_cons_succ] at hn
          obtain ⟨jb2, h1, h2⟩ := hidx m p hn
          refine ⟨jb2, h1, ?_⟩
          simp only [List.getElem?_cons_succ, h2]
          congr 2
          omega

/-! ## Filter: claims -/

/-- C5 fails as stated: with the three allow-lists empty every job should be
returned, but on a listed path of three pieces the loop panics and returns
nothing. -/
theorem filterJobs_short_path :
    filterJobs { auroraClusters := [], auroraRoles := [], auroraEnvs := [], auroraJobs := [],
                 verbose := false, debug := false } ["devcluster/www/prod".toList] = none := by
  decide

/-- C5, as the code has it: for a list of job paths each of which splits on the
slash into at least four pieces, the filter returns, in their original order,
exactly the jobs selected by the rule of the spec (all jobs when the three
allow-lists are empty, otherwise role in the role list or env in the env list
or job name in the job list), and each returned job carries as its index its
position in the unfiltered list. -/
theorem filterJobs_spec (fl : Flags) (jobs : List Str)
    (hwf : ∀ p ∈ jobs, 4 ≤ (Split '/' p).length) :
    ∃ all : List JobUpdate, all.length = jobs.length ∧
      (∀ (n : Nat) (p : Str), jobs[n]? = some p →
        ∃ jb, NewJobFromString p = some jb ∧ all[n]? = some (initJobUpdate jb n)) ∧
      filterJobs fl jobs = some (all.filter (fun j =>
        decide (SelectedSpec fl.auroraRoles fl.auroraEnvs fl.auroraJobs j.Job))) ∧
      ∀ out, filterJobs fl jobs = some out → ∀ j ∈ out,
        ∃ p, jobs[j.JobIndex]? = some p ∧ NewJobFromString p = some j.Job := by
  obtain ⟨all, hall, hlen, hidx⟩ := parseFrom_wf jobs 0 hwf
  have hidx0 : ∀ (n : Nat) (p : Str), jobs[n]? = some p →
      ∃ jb, NewJobFromString p = some jb ∧ all[n]? = some (initJobUpdate jb n) := by
    intro n p hn
    obtain ⟨jb, h1, h2⟩ := hidx n p hn
    exact ⟨jb, h1, by simpa using h2⟩
  have hf : filterJobs fl jobs = some (all.filter (fun j =>
      decide (SelectedSpec fl.auroraRoles fl.auroraEnvs fl.auroraJobs j.Job))) := by
    rw [filterJobs_eq, hall]
    simp only [Option.map_some']
    congr 2
    funext j
    exact jobSelected_eq_decide fl j
  refine ⟨all, hlen, hidx0, hf, ?_⟩
  intro out hout j hj
  rw [hf] at hout
  simp only [Option.some.injEq] at hout
  subst hout
  have hmem : j ∈ all := (List.mem_filter.1 hj).1
  obtain ⟨n, hn, hjn⟩ := List.getElem_of_mem hmem
  have hn2 : n < jobs.length := by omega
  obtain ⟨jb, h1, h2⟩ := hidx0 n jobs[n] (List.getElem?_eq_getElem hn2)
  rw [List.getElem?_eq_getElem hn] at h2
  simp only [Option.some.injEq] at h2
  rw [hjn] at h2
  subst h2
  exact ⟨jobs[n], List.getElem?_eq_getElem hn2, h1⟩

/-- C5 at two well-formed paths and the role allow-list `www`. -/
theorem filterJobs_spec_witness :
    (∀ p ∈ sampleJobs, 4 ≤ (Split '/' p).length) ∧
    ∃ all : List JobUpdate, all.length = sampleJobs.length ∧
      (∀ (n : Nat) (p : Str), sampleJobs[n]? = some p →
        ∃ jb, NewJobFromString p = some jb ∧ all[n]? = some (initJobUpdate jb n)) ∧
      filterJobs sampleFlags sampleJobs = some (all.filter (fun j =>
        decide (SelectedSpec sampleFlags.auroraRoles sampleFlags.auroraEnvs
          sampleFlags.auroraJobs j.Job))) ∧
      ∀ out, filterJobs sampleFlags sampleJobs = some out → ∀ j ∈ out,
        ∃ p, sampleJobs[j.JobIndex]? = some p ∧ NewJobFromString p = some j.Job :=
  ⟨by decide, filterJobs_spec sampleFlags sampleJobs (by decide)⟩

/-- C10 fails as stated: with a cluster allow-list given and the role, env and
job allow-lists empty, the listed path of three pieces is not selected; the
loop panics on it. -/
theorem filterJobs_cluster_short_path :
    clusterFlags.auroraClusters = ["othercluster".toList] ∧
    clusterFlags.auroraRoles = [] ∧ clusterFlags.auroraEnvs = [] ∧
    clusterFlags.auroraJobs = [] ∧
    filterJobs clusterFlags ["devcluster/www/prod".toList] = none := by
  decide

/-- C10, as the code has it: job selection reads neither the cluster allow-list
nor a job's cluster piece.  Two settings of the flags that agree on the role,
env and job allow-lists give the same filtered jobs with the same indices;
changing the cluster of a job does not change whether it is selected; and when
the role, env and job allow-lists are empty, whatever the cluster allow-list,
the selection flag is true for every job and, for a list of job paths each of
which splits on the slash into at least four pieces, the filter returns every
listed job with its index. -/
theorem jobSelected_ignores_cluster :
    (∀ (fl fl2 : Flags) (jobs : List Str), fl.auroraRoles = fl2.auroraRoles →
      fl.auroraEnvs = fl2.auroraEnvs → fl.auroraJobs = fl2.auroraJobs →
      filterJobs fl jobs = filterJobs fl2 jobs) ∧
    (∀ (fl : Flags) (clusters : List Str) (jobs : List Str),
      filterJobs { fl with auroraClusters := clusters } jobs = filterJobs fl jobs) ∧
    (∀ (fl : Flags) (j : JobUpdate) (c : Str),
      jobSelected fl { j with Job := { j.Job with Cluster := c } } = jobSelected fl j) ∧
    (∀ fl : Flags, fl.auroraRoles = [] → fl.auroraEnvs = [] → fl.auroraJobs = [] →
      (∀ j : JobUpdate, jobSelected fl j = true) ∧
      ∀ jobs : List Str, (∀ p ∈ jobs, 4 ≤ (Split '/' p).length) →
        ∃ all : List JobUpdate, filterJobs fl jobs = some all ∧ all.length = jobs.length ∧
          ∀ (n : Nat) (p : Str), jobs[n]? = some p →
            ∃ jb, NewJobFromString p = some jb ∧ all[n]? = some (initJobUpdate jb n)) := by
  have hsel : ∀ (fl fl2 : Flags), fl.auroraRoles = fl2.auroraRoles →
      fl.auroraEnvs = fl2.auroraEnvs → fl.auroraJobs = fl2.auroraJobs →
      jobSelected fl = jobSelected fl2 := by
    intro fl fl2 h1 h2 h3
    funext j
    simp [jobSelected, h1, h2, h3]
  have hfil : ∀ (fl fl2 : Flags) (jobs : List Str), fl.auroraRoles = fl2.auroraRoles →
      fl.auroraEnvs = fl2.auroraEnvs → fl.auroraJobs = fl2.auroraJobs →
      filterJobs fl jobs = filterJobs fl2 jobs := by
    intro fl fl2 jobs h1 h2 h3
    rw [filterJobs_eq, filterJobs_eq, hsel fl fl2 h1 h2 h3]
  refine ⟨hfil, fun fl clusters jobs => hfil _ _ jobs rfl rfl rfl, fun fl j c => rfl, ?_⟩
  intro fl h1 h2 h3
  have hall : ∀ j : JobUpdate, jobSelected fl j = true := by
    intro j
    simp [jobSelected, h1, h2, h3]
  refine ⟨hall, fun jobs hwf => ?_⟩
  obtain ⟨all, hp, hlen, hidx⟩ := parseFrom_wf jobs 0 hwf
  refine ⟨all, ?_, hlen, ?_⟩
  · rw [filterJobs_eq, hp]
    simp only [Option.map_some', Option.some.injEq]
    exact List.filter_eq_self.2 (fun j _ => hall j)
  · intro n p hn
    obtain ⟨jb, h4, h5⟩ := hidx n p hn
    exact ⟨jb, h4, by simpa using h5⟩

/-- C10 at a cluster allow-list naming a cluster none of the jobs is in: both
well-formed jobs are returned. -/
theorem jobSelected_ignores_cluster_witness :
    (∀ p ∈ sampleJobs, 4 ≤ (Split '/' p).length) ∧
    ∃ all : List JobUpdate, filterJobs clusterFlags sampleJobs = some all ∧
      all.length = sampleJobs.length ∧
      ∀ (n : Nat) (p : Str), sampleJobs[n]? = some p →
        ∃ jb, NewJobFromString p = some jb ∧ all[n]? = some (initJobUpdate jb n) :=
  ⟨by decide,
    (jobSelected_ignores_cluster.2.2.2 clusterFlags rfl rfl rfl).2 sampleJobs (by decide)⟩

/-! ## Diff classification: lemmas -/

theorem HasPrefix_head (l m : Str) (c : Char) (h : HasPrefix l (c :: m) = true) :
    l.head? = some c := by
  cases l with
  | nil => simp [HasPrefix, List.isPrefixOf] at h
  | cons d t =>
    simp only [HasPrefix, List.isPrefixOf, Bool.and_eq_true, beq_iff_eq] at h
    simp [h.1]

theorem headerMark_head (l : Str) (h : HasPrefix l headerMark = true) : l.head? = some 'T' :=
  HasPrefix_head l "his job update will:".toList 'T' h

theorem removeMark_head (l : Str) (h : HasPrefix l removeMark = true) : l.head? = some 'r' :=
  HasPrefix_head l "emove instances:".toList 'r' h

theorem addMark_head (l : Str) (h : HasPrefix l addMark = true) : l.head? = some 'a' :=
  HasPrefix_head l "dd instances:".toList 'a' h

theorem updateMark_head (l : Str) (h : HasPrefix l updateMark = true) : l.head? = some 'u' :=
  HasPrefix_head l "pdate instances:".toList 'u' h

theorem marks_disjoint (l : Str) :
    (HasPrefix l removeMark = true → HasPrefix l addMark = false ∧
      HasPrefix l updateMark = false ∧ HasPrefix l headerMark = false) ∧
    (HasPrefix l addMark = true → HasPrefix l updateMark = false ∧
      HasPrefix l headerMark = false) ∧
    (HasPrefix l updateMark = true → HasPrefix l headerMark = false) := by
  refine ⟨fun h => ⟨?_, ?_, ?_⟩, fun h => ⟨?_, ?_⟩, fun h => ?_⟩
  · cases h2 : HasPrefix l addMark with
    | false => rfl
    | true => have := removeMark_head l h; have := addMark_head l h2; simp_all
  · cases h2 : HasPrefix l updateMark with
    | false => rfl
    | true => have := removeMark_head l h; have := updateMark_head l h2; simp_all
  · cases h2 : HasPrefix l headerMark with
    | false => rfl
    | true => have := removeMark_head l h; have := headerMark_head l h2; simp_all
  · cases h2 : HasPrefix l updateMark with
    | false => rfl
    | true => have := addMark_head l h; have := updateMark_head l h2; simp_all
  · cases h2 : HasPrefix l headerMark with
    | false => rfl
    | true => have := addMark_head l h; have := headerMark_head l h2; simp_all
  · cases h2 : HasPrefix l headerMark with
    | false => rfl
    | true => have := updateMark_head l h; have := headerMark_head l h2; simp_all

theorem scanLine_fields (j : JobUpdate) (t : Str) :
    (scanLine j t).JobIndex = j.JobIndex ∧ (scanLine j t).Job = j.Job ∧
    (scanLine j t).FoundHeader = (j.FoundHeader || HasPrefix t headerMark) ∧
    (scanLine j t).Remove = (if HasPrefix t removeMark then FindString t else j.Remove) ∧
    (scanLine j t).Add = (if HasPrefix t addMark then FindString t else j.Add) ∧
    (scanLine j t).Update = (if HasPrefix t updateMark then FindString t else j.Update) ∧
    (scanLine j t).Diff =
      (if (j.FoundHeader || HasPrefix t headerMark || isMarker t) then j.Diff
       else j.Diff ++ [t]) ∧
    (scanLine j t).Dirty =
      (j.Dirty || HasPrefix t removeMark || HasPrefix t addMark ||
        !(j.FoundHeader || HasPrefix t headerMark || isMarker t)) := by
  obtain ⟨h1, h2, h3⟩ := marks_disjoint t
  cases hR : HasPrefix t removeMark
  · cases hA : HasPrefix t addMark
    · cases hU : HasPrefix t updateMark
      · cases hH : HasPrefix t headerMark <;> cases hF : j.FoundHeader <;>
          simp [scanLine, isMarker, hR, hA, hU, hH, hF]
      · have := h3 hU
        cases hF : j.FoundHeader <;> simp [scanLine, isMarker, hR, hA, hU, this, hF]
    · obtain ⟨hU, hH⟩ := h2 hA
      cases hF : j.FoundHeader <;> simp [scanLine, isMarker, hR, hA, hU, hH, hF]
  · obtain ⟨hA, hU, hH⟩ := h1 hR
    cases hF : j.FoundHeader <;> simp [scanLine, isMarker, hR, hA, hU, hH, hF]

theorem classify_cons (j : JobUpdate) (t : Str) (ls : List Str) :
    classify j (t :: ls) = classify (scanLine j t) ls := rfl

theorem classify_job (j : JobUpdate) (ls : List Str) :
    (classify j ls).JobIndex = j.JobIndex ∧ (classify j ls).Job = j.Job := by
  induction ls generalizing j with
  | nil => exact ⟨rfl, rfl⟩
  | cons t ls ih =>
    rw [classify_cons]
    obtain ⟨a, b⟩ := ih (scanLine j t)
    obtain ⟨c, d, _⟩ := scanLine_fields j t
    exact ⟨a.trans c, b.trans d⟩

theorem classify_ranges (j : JobUpdate) (ls : List Str) :
    (classify j ls).Remove = lastRange removeMark ls j.Remove ∧
    (classify j ls).Add = lastRange addMark ls j.Add ∧
    (classify j ls).Update = lastRange updateMark ls j.Update := by
  induction ls generalizing j with
  | nil => exact ⟨rfl, rfl, rfl⟩
  | cons t ls ih =>
    rw [classify_cons]
    obtain ⟨a, b, c⟩ := ih (scanLine j t)
    obtain ⟨_, _, _, hr, ha, hu, _⟩ := scanLine_fields j t
    rw [a, b, c, hr, ha, hu]
    exact ⟨rfl, rfl, rfl⟩

theorem classify_diff (j : JobUpdate) (ls : List Str) :
    (classify j ls).Diff = j.Diff ++ (if j.FoundHeader then [] else freeform ls) := by
  induction ls generalizing j with
  | nil => simp [classify, freeform]
  | cons t ls ih =>
    rw [classify_cons, ih (scanLine j t)]
    obtain ⟨_, _, hf, _, _, _, hd, _⟩ := scanLine_fields j t
    rw [hf, hd]
    cases hF : j.FoundHeader
    · cases hH : HasPrefix t headerMark
      · cases hM : isMarker t <;> simp [freeform, hH, hM]
      · simp [freeform, hH]
    · simp

theorem freeform_cons (t : Str) (ls : List Str) :
    freeform (t :: ls) =
      if HasPrefix t headerMark then []
      else if isMarker t then freeform ls else t :: freeform ls := by
  unfold freeform
  cases hH : HasPrefix t headerMark <;> cases hM : isMarker t <;>
    simp [List.takeWhile, List.filter, hH, hM]

theorem classify_dirty (j : JobUpdate) (ls : List Str) :
    (classify j ls).Dirty =
      (j.Dirty || ls.any (fun l => HasPrefix l removeMark) ||
        ls.any (fun l => HasPrefix l addMark) ||
        (!j.FoundHeader && !(freeform ls).isEmpty)) := by
  induction ls generalizing j with
  | nil => simp [classify, freeform]
  | cons t ls ih =>
    rw [classify_cons, ih (scanLine j t)]
    obtain ⟨_, _, hf, _, _, _, _, hd⟩ := scanLine_fields j t
    rw [hf, hd, freeform_cons, List.any_cons, List.any_cons]
    generalize ls.any (fun l => HasPrefix l removeMark) = r
    generalize ls.any (fun l => HasPrefix l addMark) = a
    generalize freeform ls = fl
    generalize j.FoundHeader = F
    generalize j.Dirty = D
    generalize HasPrefix t headerMark = H
    generalize isMarker t = M
    generalize HasPrefix t removeMark = R
    generalize HasPrefix t addMark = A
    cases F <;> cases H <;> cases M <;> cases D <;> cases R <;> cases A <;> cases r <;>
      cases a <;> simp

theorem lastRange_none (mark : Str) (ls : List Str) (init : Str)
    (h : ∀ l ∈ ls, HasPrefix l mark = false) : lastRange mark ls init = init := by
  induction ls generalizing init with
  | nil => rfl
  | cons t ls ih =>
    have ht : HasPrefix t mark = false := h t (by simp)
    have : lastRange mark (t :: ls) init = lastRange mark ls init := by
      simp [lastRange, ht]
    rw [this]
    exact ih init (fun l hl => h l (by simp [hl]))

theorem lastRange_last (mark : Str) (ls : List Str) (init l : Str)
    (h : IsLastWith mark ls l) : lastRange mark ls init = FindString l := by
  obtain ⟨pre, post, rfl, hl, hpost⟩ := h
  have : lastRange mark (pre ++ l :: post) init = lastRange mark post (FindString l) := by
    simp [lastRange, List.foldl_append, hl]
  rw [this]
  exact lastRange_none mark post _ hpost

theorem lastRange_isRangeOf (mark : Str) (ls : List Str) :
    IsRangeOf mark ls (lastRange mark ls []) := by
  refine ⟨fun l hl => ?_, fun hno => lastRange_none mark ls [] hno⟩
  rw [lastRange_last mark ls [] l hl]
  exact ⟨fun b hb => FindString_of_first l b hb, fun hno => FindString_of_none l hno⟩

/-! ## Diff classification: the loop body over a list of lines -/

theorem classify_dirty_lines (jb : Job) (i : Nat) (lines : List Str) :
    ((classify (initJobUpdate jb i) lines).Dirty = true ↔
      (∃ l ∈ lines, HasPrefix l removeMark = true) ∨
      (∃ l ∈ lines, HasPrefix l addMark = true) ∨
      (classify (initJobUpdate jb i) lines).Diff ≠ []) ∧
    ((classify (initJobUpdate jb i) lines).Remove ≠ [] ∨
      (classify (initJobUpdate jb i) lines).Add ≠ [] ∨
      (classify (initJobUpdate jb i) lines).Diff ≠ [] →
      (classify (initJobUpdate jb i) lines).Dirty = true) := by
  have hd := classify_dirty (initJobUpdate jb i) lines
  have hf := classify_diff (initJobUpdate jb i) lines
  obtain ⟨hr, ha, _⟩ := classify_ranges (initJobUpdate jb i) lines
  have hiff : (classify (initJobUpdate jb i) lines).Dirty = true ↔
      (∃ l ∈ lines, HasPrefix l removeMark = true) ∨
      (∃ l ∈ lines, HasPrefix l addMark = true) ∨
      (classify (initJobUpdate jb i) lines).Diff ≠ [] := by
    rw [hd, hf]
    simp [initJobUpdate, or_assoc]
  refine ⟨hiff, fun h => hiff.2 ?_⟩
  rcases h with h | h | h
  · left
    by_contra hno
    apply h
    rw [hr]
    exact lastRange_none removeMark lines [] (fun l hl => by
      cases hp : HasPrefix l removeMark with
      | false => rfl
      | true => exact absurd ⟨l, hl, hp⟩ hno)
  · right; left
    by_contra hno
    apply h
    rw [ha]
    exact lastRange_none addMark lines [] (fun l hl => by
      cases hp : HasPrefix l addMark with
      | false => rfl
      | true => exact absurd ⟨l, hl, hp⟩ hno)
  · right; right; exact h


theorem classify_freeform_lines (jb : Job) (i : Nat) (lines : List Str) :
    (classify (initJobUpdate jb i) lines).Diff =
      (lines.takeWhile (fun l => !HasPrefix l headerMark)).filter (fun l =>
        !(HasPrefix l removeMark || HasPrefix l addMark || HasPrefix l updateMark)) ∧
    (∀ (pre : List Str) (h : Str) (post : List Str), lines = pre ++ h :: post →
      HasPrefix h headerMark = true → (∀ l ∈ pre, HasPrefix l headerMark = false) →
      (classify (initJobUpdate jb i) lines).Diff = pre.filter (fun l =>
        !(HasPrefix l removeMark || HasPrefix l addMark || HasPrefix l updateMark))) ∧
    ((∀ l ∈ lines, HasPrefix l headerMark = false) →
      (classify (initJobUpdate jb i) lines).Diff = lines.filter (fun l =>
        !(HasPrefix l removeMark || HasPrefix l addMark || HasPrefix l updateMark))) := by
  have hf : (classify (initJobUpdate jb i) lines).Diff =
      (lines.takeWhile (fun l => !HasPrefix l headerMark)).filter (fun l =>
        !(HasPrefix l removeMark || HasPrefix l addMark || HasPrefix l updateMark)) := by
    rw [classify_diff]
    simp [initJobUpdate, freeform, isMarker]
  refine ⟨hf, ?_, ?_⟩
  · intro pre h post hl hh hpre
    rw [hf, hl, List.takeWhile_append_of_pos (fun l hl => by simp [hpre l hl])]
    simp [List.takeWhile, hh]
  · intro hno
    rw [hf]
    congr 1
    exact List.takeWhile_eq_self_iff.2 (fun l hl => by simp [hno l hl])


theorem classify_ranges_lines (jb : Job) (i : Nat) (lines : List Str) :
    IsRangeOf removeMark lines (classify (initJobUpdate jb i) lines).Remove ∧
    IsRangeOf addMark lines (classify (initJobUpdate jb i) lines).Add ∧
    IsRangeOf updateMark lines (classify (initJobUpdate jb i) lines).Update ∧
    ((∃ l ∈ lines, HasPrefix l removeMark = true ∨ HasPrefix l addMark = true) →
      (classify (initJobUpdate jb i) lines).Dirty = true) := by
  obtain ⟨hr, ha, hu⟩ := classify_ranges (initJobUpdate jb i) lines
  refine ⟨?_, ?_, ?_, ?_⟩
  · rw [hr]; exact lastRange_isRangeOf removeMark lines
  · rw [ha]; exact lastRange_isRangeOf addMark lines
  · rw [hu]; exact lastRange_isRangeOf updateMark lines
  · rintro ⟨l, hl, h⟩
    rw [classify_dirty]
    rcases h with h | h
    · have : lines.any (fun l => HasPrefix l removeMark) = true :=
        List.any_eq_true.2 ⟨l, hl, h⟩
      simp [this]
    · have : lines.any (fun l => HasPrefix l addMark) = true :=
        List.any_eq_true.2 ⟨l, hl, h⟩
      simp [this]

theorem classify_clean_lines (jb : Job) (i : Nat) (lines : List Str)
    (hno : ∀ l ∈ lines, HasPrefix l removeMark = false ∧ HasPrefix l addMark = false)
    (hup : ∀ l ∈ lines.takeWhile (fun l => !HasPrefix l headerMark),
      HasPrefix l updateMark = true) :
    (classify (initJobUpdate jb i) lines).Dirty = false ∧
    (classify (initJobUpdate jb i) lines).Diff = [] ∧
    (classify (initJobUpdate jb i) lines).Add = [] ∧
    (classify (initJobUpdate jb i) lines).Remove = [] := by
  obtain ⟨hr, ha, _⟩ := classify_ranges (initJobUpdate jb i) lines
  have hfree : freeform lines = [] := by
    unfold freeform
    rw [List.filter_eq_nil_iff]
    intro l hl
    simp [isMarker, hup l hl]
  have hR : lines.any (fun l => HasPrefix l removeMark) = false := by
    rw [List.any_eq_false]
    intro l hl
    simp [(hno l hl).1]
  have hA : lines.any (fun l => HasPrefix l addMark) = false := by
    rw [List.any_eq_false]
    intro l hl
    simp [(hno l hl).2]
  refine ⟨?_, ?_, ?_, ?_⟩
  · rw [classify_dirty, hR, hA, hfree]
    simp [initJobUpdate]
  · rw [classify_diff, hfree]
    simp [initJobUpdate]
  · rw [ha]
    exact lastRange_none addMark lines [] (fun l hl => (hno l hl).2)
  · rw [hr]
    exact lastRange_none removeMark lines [] (fun l hl => (hno l hl).1)

/-! ## Line scanner: lemmas -/

theorem scanLines_eq_outputLines (out : Str)
    (hshort : ∀ l ∈ rawLines out, byteLen l < MaxScanTokenSize) :
    scanLines out = outputLines out := by
  unfold scanLines outputLines
  congr 1
  exact List.takeWhile_eq_self_iff.2 (fun l hl => by simpa using hshort l hl)

theorem scanLines_append (out : Str) : ∃ t, outputLines out = scanLines out ++ t := by
  refine ⟨((rawLines out).dropWhile (fun l => decide (byteLen l < MaxScanTokenSize))).map
    dropCR, ?_⟩
  unfold scanLines outputLines
  rw [← List.map_append, List.takeWhile_append_dropWhile]

theorem mem_takeWhile_append (q : Str → Bool) (S t : List Str) :
    ∀ l ∈ S.takeWhile q, l ∈ (S ++ t).takeWhile q := by
  induction S with
  | nil => simp
  | cons a S ih =>
    intro l hl
    by_cases ha : q a = true
    · rw [List.takeWhile_cons_of_pos ha] at hl
      rw [List.cons_append, List.takeWhile_cons_of_pos ha]
      rcases List.mem_cons.1 hl with rfl | hl
      · exact List.mem_cons_self _ _
      · exact List.mem_cons_of_mem _ (ih l hl)
    · rw [List.takeWhile_cons_of_neg ha] at hl
      simp at hl

theorem Split_append_sep (sep : Char) (a b : Str) (ha : sep ∉ a) :
    Split sep (a ++ sep :: b) = a :: Split sep b := by
  induction a with
  | nil => simp [Split]
  | cons c a ih =>
    have hc : c ≠ sep := fun h => ha (by simp [h])
    have ha2 : sep ∉ a := fun h => ha (by simp [h])
    simp [Split, hc, ih ha2]

theorem Split_no_sep (sep : Char) (a : Str) (ha : sep ∉ a) : Split sep a = [a] := by
  induction a with
  | nil => simp [Split]
  | cons c a ih =>
    have hc : c ≠ sep := fun h => ha (by simp [h])
    have ha2 : sep ∉ a := fun h => ha (by simp [h])
    simp [Split, hc, ih ha2]

theorem byteLen_replicate (n : Nat) : byteLen (List.replicate n 'x') = n := by
  have h : 'x'.utf8Size = 1 := by decide
  simp [byteLen, List.map_replicate, List.sum_replicate, h]

theorem HasPrefix_replicate (n : Nat) (c : Char) (m : Str) (hc : c ≠ 'x') :
    HasPrefix (List.replicate n 'x') (c :: m) = false := by
  cases n with
  | zero => simp [HasPrefix, List.isPrefixOf]
  | succ k => simp [HasPrefix, List.isPrefixOf, List.replicate_succ, hc]

theorem dropCR_replicate (n : Nat) : dropCR (List.replicate n 'x') = List.replicate n 'x' := by
  unfold dropCR
  rw [if_neg]
  intro h
  have hm := List.mem_of_getLast?_eq_some h
  have := List.eq_of_mem_replicate hm
  exact absurd this (by decide)

theorem longLine_header : HasPrefix longLine headerMark = false :=
  HasPrefix_replicate 65536 'T' "his job update will:".toList (by decide)

theorem longLine_marker : isMarker longLine = false := by
  have h1 : HasPrefix longLine removeMark = false :=
    HasPrefix_replicate 65536 'r' "emove instances:".toList (by decide)
  have h2 : HasPrefix longLine addMark = false :=
    HasPrefix_replicate 65536 'a' "dd instances:".toList (by decide)
  have h3 : HasPrefix longLine updateMark = false :=
    HasPrefix_replicate 65536 'u' "pdate instances:".toList (by decide)
  unfold isMarker
  rw [h1, h2, h3]
  rfl

theorem rawLines_longOutput :
    rawLines longOutput =
      ["remove instances: [1]".toList, longLine, "add instances: [2]".toList] := by
  have hx : '\n' ∉ longLine := by
    intro h
    have := List.eq_of_mem_replicate h
    exact absurd this (by decide)
  have hs : Split '\n' longOutput =
      ["remove instances: [1]".toList, longLine, "add instances: [2]".toList] := by
    unfold longOutput
    rw [Split_append_sep _ _ _ (by decide), Split_append_sep _ _ _ hx,
      Split_no_sep _ _ (by decide)]
  have hl : (["remove instances: [1]".toList, longLine, "add instances: [2]".toList] :
      List Str).getLast? = some "add instances: [2]".toList := rfl
  unfold rawLines
  rw [hs, hl, if_neg (by decide)]

theorem outputLines_longOutput :
    outputLines longOutput =
      ["remove instances: [1]".toList, longLine, "add instances: [2]".toList] := by
  have h1 : dropCR "remove instances: [1]".toList = "remove instances: [1]".toList := by decide
  have h2 : dropCR "add instances: [2]".toList = "add instances: [2]".toList := by decide
  have h3 : dropCR longLine = longLine := dropCR_replicate 65536
  unfold outputLines
  rw [rawLines_longOutput]
  simp only [List.map_cons, List.map_nil, h1, h2, h3]

theorem scanLines_longOutput : scanLines longOutput = ["remove instances: [1]".toList] := by
  have h1 : dropCR "remove instances: [1]".toList = "remove instances: [1]".toList := by decide
  have hshort : decide (byteLen "remove instances: [1]".toList < MaxScanTokenSize) = true := by
    decide
  have hlen : byteLen longLine = 65536 := byteLen_replicate 65536
  have hlong : ¬ decide (byteLen longLine < MaxScanTokenSize) = true := by
    rw [hlen]
    decide
  unfold scanLines
  rw [rawLines_longOutput, List.takeWhile_cons, if_pos hshort, List.takeWhile_cons,
    if_neg hlong]
  simp only [List.map_cons, List.map_nil, h1]

/-! ## Diff classification: claims -/

/-- C1 fails as stated: after the single line `remove instances: none` the job
is dirty although no remove range and no add range is present and no freeform
line was recorded. -/
theorem classify_dirty_without_range :
    (classify (initJobUpdate sampleJob 0) ["remove instances: none".toList]).Dirty = true ∧
    (classify (initJobUpdate sampleJob 0) ["remove instances: none".toList]).Remove = [] ∧
    (classify (initJobUpdate sampleJob 0) ["remove instances: none".toList]).Add = [] ∧
    (classify (initJobUpdate sampleJob 0) ["remove instances: none".toList]).Diff = [] ∧
    scanLines "remove instances: none".toList = ["remove instances: none".toList] ∧
    (classifyOutput (initJobUpdate sampleJob 0) "remove instances: none".toList).Dirty = true ∧
    (classifyOutput (initJobUpdate sampleJob 0) "remove instances: none".toList).Remove = [] ∧
    (classifyOutput (initJobUpdate sampleJob 0) "remove instances: none".toList).Add = [] ∧
    (classifyOutput (initJobUpdate sampleJob 0) "remove instances: none".toList).Diff = [] := by
  decide

/-- C1, as the code has it: for a diff output none of whose lines is 65536 bytes
or longer, the job is dirty after the scan if and only if some line of the
output starts with the remove marker, or some line starts with the add marker,
or a freeform line was recorded; in particular a job with a remove range, an
add range or a freeform line is dirty. -/
theorem classifyOutput_dirty_iff (jb : Job) (i : Nat) (out : Str)
    (hshort : ∀ l ∈ rawLines out, byteLen l < MaxScanTokenSize) :
    ((classifyOutput (initJobUpdate jb i) out).Dirty = true ↔
      (∃ l ∈ outputLines out, HasPrefix l removeMark = true) ∨
      (∃ l ∈ outputLines out, HasPrefix l addMark = true) ∨
      (classifyOutput (initJobUpdate jb i) out).Diff ≠ []) ∧
    ((classifyOutput (initJobUpdate jb i) out).Remove ≠ [] ∨
      (classifyOutput (initJobUpdate jb i) out).Add ≠ [] ∨
      (classifyOutput (initJobUpdate jb i) out).Diff ≠ [] →
      (classifyOutput (initJobUpdate jb i) out).Dirty = true) := by
  unfold classifyOutput
  rw [scanLines_eq_outputLines out hshort]
  exact classify_dirty_lines jb i (outputLines out)

/-- C1 at the output `remove instances: none`: the marker line alone makes the
job dirty. -/
theorem classifyOutput_dirty_iff_witness :
    (∀ l ∈ rawLines "remove instances: none".toList, byteLen l < MaxScanTokenSize) ∧
    (classifyOutput (initJobUpdate sampleJob 0) "remove instances: none".toList).Dirty = true :=
  ⟨by decide,
    (classifyOutput_dirty_iff sampleJob 0 "remove instances: none".toList (by decide)).1.2
      (Or.inl ⟨"remove instances: none".toList, by decide, by decide⟩)⟩

/-- C2 fails as stated: in an output whose second line has 65536 bytes, that line
stands before any header line and starts with no marker, so it should be the
one freeform line; the scanner stops at it and no freeform line is recorded. -/
theorem classifyOutput_freeform_long_line :
    outputLines longOutput =
      ["remove instances: [1]".toList, longLine, "add instances: [2]".toList] ∧
    (∀ l ∈ outputLines longOutput, HasPrefix l headerMark = false) ∧
    (outputLines longOutput).filter (fun l =>
      !(HasPrefix l removeMark || HasPrefix l addMark || HasPrefix l updateMark)) = [longLine] ∧
    scanLines longOutput = ["remove instances: [1]".toList] ∧
    (classifyOutput (initJobUpdate sampleJob 0) longOutput).Diff = [] := by
  have hm := longLine_marker
  unfold isMarker at hm
  have h1 : (!(HasPrefix "remove instances: [1]".toList removeMark ||
      HasPrefix "remove instances: [1]".toList addMark ||
      HasPrefix "remove instances: [1]".toList updateMark)) = false := by decide
  have h2 : (!(HasPrefix "add instances: [2]".toList removeMark ||
      HasPrefix "add instances: [2]".toList addMark ||
      HasPrefix "add instances: [2]".toList updateMark)) = false := by decide
  refine ⟨outputLines_longOutput, ?_, ?_, scanLines_longOutput, ?_⟩
  · rw [outputLines_longOutput]
    intro l hl
    simp only [List.mem_cons, List.mem_singleton, List.not_mem_nil, or_false] at hl
    rcases hl with rfl | rfl | rfl
    · decide
    · exact longLine_header
    · decide
  · rw [outputLines_longOutput]
    simp only [List.filter_cons, List.filter_nil, h1, h2, hm]
    simp
  · unfold classifyOutput
    rw [scanLines_longOutput]
    decide

/-- C2, as the code has it: for a diff output none of whose lines is 65536 bytes
or longer, the freeform lines after the scan are, in order, the lines of the
output before the first header line (all lines when there is none) that start
with none of the three instance markers; the header line and the lines after it
are not among them. -/
theorem classifyOutput_freeform (jb : Job) (i : Nat) (out : Str)
    (hshort : ∀ l ∈ rawLines out, byteLen l < MaxScanTokenSize) :
    (classifyOutput (initJobUpdate jb i) out).Diff =
      ((outputLines out).takeWhile (fun l => !HasPrefix l headerMark)).filter (fun l =>
        !(HasPrefix l removeMark || HasPrefix l addMark || HasPrefix l updateMark)) ∧
    (∀ (pre : List Str) (h : Str) (post : List Str), outputLines out = pre ++ h :: post →
      HasPrefix h headerMark = true → (∀ l ∈ pre, HasPrefix l headerMark = false) →
      (classifyOutput (initJobUpdate jb i) out).Diff = pre.filter (fun l =>
        !(HasPrefix l removeMark || HasPrefix l addMark || HasPrefix l updateMark))) ∧
    ((∀ l ∈ outputLines out, HasPrefix l headerMark = false) →
      (classifyOutput (initJobUpdate jb i) out).Diff = (outputLines out).filter (fun l =>
        !(HasPrefix l removeMark || HasPrefix l addMark || HasPrefix l updateMark))) := by
  unfold classifyOutput
  rw [scanLines_eq_outputLines out hshort]
  exact classify_freeform_lines jb i (outputLines out)

/-- C2 at an output with one error line before the header, lines ending in
carriage return and newline. -/
theorem classifyOutput_freeform_witness :
    (∀ l ∈ rawLines sampleText, byteLen l < MaxScanTokenSize) ∧
    outputLines sampleText = sampleLines ∧
    (classifyOutput (initJobUpdate sampleJob 0) sampleText).Diff = ["some error text".toList] :=
  ⟨by decide, by decide,
    ((classifyOutput_freeform sampleJob 0 sampleText (by decide)).2.1
      ["some error text".toList] "This job update will:".toList
      ["update instances: [0-2]".toList, "with diff:".toList] (by decide) (by decide)
      (by decide)).trans (by decide)⟩

/-- C3 fails as stated: in an output whose second line has 65536 bytes, the last
line starting with the add marker is `add instances: [2]`, whose first
bracketed substring is `[2]`; the scanner stops before it and the add range
stays empty. -/
theorem classifyOutput_ranges_long_line :
    IsLastWith addMark (outputLines longOutput) "add instances: [2]".toList ∧
    IsFirstBracketed "add instances: [2]".toList "[2]".toList ∧
    (classifyOutput (initJobUpdate sampleJob 0) longOutput).Add = [] := by
  refine ⟨?_, ?_, ?_⟩
  · exact ⟨["remove instances: [1]".toList, longLine], [], outputLines_longOutput, by decide,
      by simp⟩
  · exact FindString_first "add instances: [2]".toList
      ⟨"add instances: ".toList, "[2]".toList, [], ⟨"2".toList, by decide, by decide⟩,
        by decide⟩
  · unfold classifyOutput
    rw [scanLines_longOutput]
    decide

/-- C3, as the code has it: for a diff output none of whose lines is 65536 bytes
or longer, the remove range after the scan (and likewise the add range and the
update range) is the first bracketed substring of the last line of the output
starting with the remove (add, update) marker, and is empty when no line starts
with that marker; a line starting with the remove or the add marker makes the
job dirty; scenario B gives dirty, remove range `[3]` and add range `[4-5]`. -/
theorem classifyOutput_ranges_spec :
    (∀ (jb : Job) (i : Nat) (out : Str),
      (∀ l ∈ rawLines out, byteLen l < MaxScanTokenSize) →
      IsRangeOf removeMark (outputLines out) (classifyOutput (initJobUpdate jb i) out).Remove ∧
      IsRangeOf addMark (outputLines out) (classifyOutput (initJobUpdate jb i) out).Add ∧
      IsRangeOf updateMark (outputLines out) (classifyOutput (initJobUpdate jb i) out).Update ∧
      ((∃ l ∈ outputLines out, HasPrefix l removeMark = true ∨ HasPrefix l addMark = true) →
        (classifyOutput (initJobUpdate jb i) out).Dirty = true)) ∧
    (∀ (jb : Job) (i : Nat),
      (classify (initJobUpdate jb i) scenarioB).Dirty = true ∧
      (classify (initJobUpdate jb i) scenarioB).Remove = "[3]".toList ∧
      (classify (initJobUpdate jb i) scenarioB).Add = "[4-5]".toList) ∧
    (outputLines scenarioBText = scenarioB ∧
      ∀ (jb : Job) (i : Nat),
      (classifyOutput (initJobUpdate jb i) scenarioBText).Dirty = true ∧
      (classifyOutput (initJobUpdate jb i) scenarioBText).Remove = "[3]".toList ∧
      (classifyOutput (initJobUpdate jb i) scenarioBText).Add = "[4-5]".toList) := by
  refine ⟨fun jb i out hshort => ?_, fun jb i => ⟨rfl, rfl, rfl⟩, by decide, fun jb i => ?_⟩
  · unfold classifyOutput
    rw [scanLines_eq_outputLines out hshort]
    exact classify_ranges_lines jb i (outputLines out)
  · have hs : scanLines scenarioBText = scenarioB := by decide
    unfold classifyOutput
    rw [hs]
    exact ⟨rfl, rfl, rfl⟩

/-- C3 at scenario B: the remove range is the first bracketed substring of the
last remove line of the output. -/
theorem classifyOutput_ranges_spec_witness :
    (∀ l ∈ rawLines scenarioBText, byteLen l < MaxScanTokenSize) ∧
    IsLastWith removeMark (outputLines scenarioBText) "remove instances: [3]".toList ∧
    IsFirstBracketed "remove instances: [3]".toList "[3]".toList ∧
    (classifyOutput (initJobUpdate sampleJob 0) scenarioBText).Remove = "[3]".toList := by
  have hlast : IsLastWith removeMark (outputLines scenarioBText)
      "remove instances: [3]".toList :=
    ⟨["This job update will:".toList], ["add instances: [4-5]".toList], by decide, by decide,
      by decide⟩
  have hfirst : IsFirstBracketed "remove instances: [3]".toList "[3]".toList :=
    FindString_first "remove instances: [3]".toList
      ⟨"remove instances: ".toList, "[3]".toList, [], ⟨"3".toList, by decide, by decide⟩,
        by decide⟩
  exact ⟨by decide, hlast, hfirst,
    (((classifyOutput_ranges_spec.1 sampleJob 0 scenarioBText (by decide)).1.1 _ hlast).1 _
      hfirst)⟩

/-- C4: a line starting with the update marker never makes the job dirty.  When
no line starts with the remove or the add marker and every line before the
first header line starts with the update marker, the job is not dirty, no
freeform line is recorded and the add and remove ranges are empty; scenario A
gives not dirty and update range `[0-2]`.  The same holds of the lines of any
diff output read through the scanner, whatever the length of its lines. -/
theorem classify_update_only :
    (∀ (jb : Job) (i : Nat) (lines : List Str),
      (∀ l ∈ lines, HasPrefix l removeMark = false ∧ HasPrefix l addMark = false) →
      (∀ l ∈ lines.takeWhile (fun l => !HasPrefix l headerMark),
        HasPrefix l updateMark = true) →
      (classify (initJobUpdate jb i) lines).Dirty = false ∧
      (classify (initJobUpdate jb i) lines).Diff = [] ∧
      (classify (initJobUpdate jb i) lines).Add = [] ∧
      (classify (initJobUpdate jb i) lines).Remove = []) ∧
    (∀ (jb : Job) (i : Nat),
      (classify (initJobUpdate jb i) scenarioA).Dirty = false ∧
      (classify (initJobUpdate jb i) scenarioA).Update = "[0-2]".toList ∧
      (classify (initJobUpdate jb i) scenarioA).Add = [] ∧
      (classify (initJobUpdate jb i) scenarioA).Remove = [] ∧
      (classify (initJobUpdate jb i) scenarioA).Diff = []) ∧
    (∀ (jb : Job) (i : Nat) (out : Str),
      (∀ l ∈ outputLines out, HasPrefix l removeMark = false ∧ HasPrefix l addMark = false) →
      (∀ l ∈ (outputLines out).takeWhile (fun l => !HasPrefix l headerMark),
        HasPrefix l updateMark = true) →
      (classifyOutput (initJobUpdate jb i) out).Dirty = false ∧
      (classifyOutput (initJobUpdate jb i) out).Diff = [] ∧
      (classifyOutput (initJobUpdate jb i) out).Add = [] ∧
      (classifyOutput (initJobUpdate jb i) out).Remove = []) := by
  refine ⟨fun jb i lines hno hup => classify_clean_lines jb i lines hno hup,
    fun jb i => ⟨rfl, rfl, rfl, rfl, rfl⟩, fun jb i out hno hup => ?_⟩
  obtain ⟨t, ht⟩ := scanLines_append out
  unfold classifyOutput
  apply classify_clean_lines jb i (scanLines out)
  · intro l hl
    exact hno l (by rw [ht]; exact List.mem_append_left _ hl)
  · intro l hl
    apply hup l
    rw [ht]
    exact mem_takeWhile_append _ _ t l hl

/-- C4 at scenario A. -/
theorem classify_update_only_witness :
    (classify (initJobUpdate sampleJob 0) scenarioA).Dirty = false ∧
    (classify (initJobUpdate sampleJob 0) scenarioA).Diff = [] ∧
    (classify (initJobUpdate sampleJob 0) scenarioA).Add = [] ∧
    (classify (initJobUpdate sampleJob 0) scenarioA).Remove = [] :=
  classify_update_only.1 sampleJob 0 scenarioA (by decide) (by decide)

/-! ## Report: lemmas and claims -/

theorem diffLoop_eq (fl : Flags) (auroraFile : Str) (diffCmd : Job → Except Str Str)
    (scan : Str → List Str) (js : List JobUpdate) (out : List Summary) :
    diffLoop fl auroraFile diffCmd scan js out =
      out ++ js.filterMap (entryOf fl auroraFile diffCmd scan) := by
  induction js generalizing out with
  | nil => simp [diffLoop]
  | cons j rest ih =>
    unfold diffLoop
    cases h : diffCmd j.Job with
    | error e => simp [ih, List.filterMap_cons, entryOf, h]
    | ok text => simp [ih, List.filterMap_cons, entryOf, h]

theorem report_eq (fl : Flags) (auroraFile : Str) (diffCmd : Job → Except Str Str)
    (scan : Str → List Str) (js : List JobUpdate) :
    report fl auroraFile diffCmd scan js = js.filterMap (entryOf fl auroraFile diffCmd scan) := by
  unfold report
  rw [diffLoop_eq]
  rfl

/-- C9: with the diff invocation a function from a job to an error or its
output, the report has, in order, one entry for exactly the jobs whose
invocation succeeded, namely the summary of the classified output; every entry
comes from such a job, a job whose invocation failed adds no entry, and the
jobs after it are processed as if it had not been there. -/
theorem report_spec (fl : Flags) (auroraFile : Str) (diffCmd : Job → Except Str Str)
    (scan : Str → List Str) (js : List JobUpdate) :
    report fl auroraFile diffCmd scan js =
      js.filterMap (entryOf fl auroraFile diffCmd scan) ∧
    (report fl auroraFile diffCmd scan js).map (fun s => (s.JobIndex, s.JobPath)) =
      (js.filter (fun j => succeeded diffCmd j.Job)).map (fun j => (j.JobIndex, j.Job.JobPath)) ∧
    (∀ s ∈ report fl auroraFile diffCmd scan js, ∃ j ∈ js, ∃ text,
      diffCmd j.Job = Except.ok text ∧
      s = summarize fl auroraFile (classify j (scan text))) ∧
    (∀ (j : JobUpdate) (rest : List JobUpdate) (e : Str), diffCmd j.Job = Except.error e →
      report fl auroraFile diffCmd scan (j :: rest) = report fl auroraFile diffCmd scan rest) ∧
    (∀ (j : JobUpdate) (rest : List JobUpdate) (text : Str), diffCmd j.Job = Except.ok text →
      report fl auroraFile diffCmd scan (j :: rest) =
        summarize fl auroraFile (classify j (scan text)) ::
          report fl auroraFile diffCmd scan rest) ∧
    (∀ js1 js2 : List JobUpdate, report fl auroraFile diffCmd scan (js1 ++ js2) =
      report fl auroraFile diffCmd scan js1 ++ report fl auroraFile diffCmd scan js2) := by
  refine ⟨report_eq fl auroraFile diffCmd scan js, ?_, ?_, ?_, ?_, ?_⟩
  · rw [report_eq]
    induction js with
    | nil => rfl
    | cons j rest ih =>
      cases h : diffCmd j.Job with
      | error e => simp [List.filterMap_cons, List.filter_cons, entryOf, succeeded, h, ih]
      | ok text =>
        simp [List.filterMap_cons, List.filter_cons, entryOf, succeeded, h, ih, summarize,
          (classify_job j (scan text)).1, (classify_job j (scan text)).2]
  · intro s hs
    rw [report_eq, List.mem_filterMap] at hs
    obtain ⟨j, hj, he⟩ := hs
    refine ⟨j, hj, ?_⟩
    unfold entryOf at he
    cases h : diffCmd j.Job with
    | error e => rw [h] at he; simp at he
    | ok text =>
      rw [h] at he
      simp only [Option.some.injEq] at he
      exact ⟨text, rfl, he.symm⟩
  · intro j rest e h
    rw [report_eq, report_eq]
    simp [List.filterMap_cons, entryOf, h]
  · intro j rest text h
    rw [report_eq, report_eq]
    simp [List.filterMap_cons, entryOf, h]
  · intro js1 js2
    rw [report_eq, report_eq, report_eq, List.filterMap_append]

/-- C9 at a list of two jobs of which the first fails: the report is that of the
second job alone, one entry, not dirty. -/
theorem report_spec_witness :
    sampleDiffCmd sampleJob = Except.error "exit status 1".toList ∧
    report sampleFlags "app.aurora".toList sampleDiffCmd (Split '\n')
        [initJobUpdate sampleJob 0, initJobUpdate sampleJob2 1] =
      report sampleFlags "app.aurora".toList sampleDiffCmd (Split '\n')
        [initJobUpdate sampleJob2 1] ∧
    (report sampleFlags "app.aurora".toList sampleDiffCmd (Split '\n')
        [initJobUpdate sampleJob 0, initJobUpdate sampleJob2 1]).map
      (fun s => (s.JobIndex, s.Dirty)) = [(1, false)] :=
  ⟨rfl,
    (report_spec sampleFlags "app.aurora".toList sampleDiffCmd (Split '\n')
      [initJobUpdate sampleJob 0, initJobUpdate sampleJob2 1]).2.2.2.1 _ _
      "exit status 1".toList rfl,
    by decide⟩

end Auroractl
